import Mathlib

/-!
Shallow embedding of the core of the 15445-bootcamp repository:

* `src/move_constructors.cpp` — class `Person` (the spec's OwnershipCell):
  an exclusive-ownership resource type with a move constructor, a move
  assignment operator, deleted copy operations, and a `valid_` flag.
* `src/range_based_for.cpp` — `Node`, `DLL` (the spec's LinkedList) and
  `DLL::DLLIterator` (the spec's Cursor): a manually heap-managed doubly
  linked list with head insertion, a destructor walking the chain, and an
  iterator supporting `++`, `!=`, `*` and `+ offset`.

Heap-allocated nodes are modelled by an explicit heap: a map from natural
addresses to `Node` records plus an allocation counter.  Reading through a
null or dangling pointer is modelled as `Option` failure (`none` = the
undefined-behaviour boundary of the C++ source).
-/

/-! ## Person (move_constructors.cpp) -/

/-- State of one `Person` object: `age_ : uint32_t` (no arithmetic is ever
performed on it, so it is modelled as `Nat`), `nicknames_ :
std::vector<std::string>`, `valid_ : bool`. -/
structure Person where
  age : Nat
  nicknames : List String
  valid : Bool
deriving DecidableEq, Repr

/-- Default constructor `Person() : age_(0), nicknames_({}), valid_(true) {}`. -/
def Person.ctorDefault : Person := { age := 0, nicknames := [], valid := true }

/-- Direct constructor `Person(uint32_t age, std::vector<std::string> &&nicknames)
    : age_(age), nicknames_(std::move(nicknames)), valid_(true) {}`. -/
def Person.ctor (age : Nat) (nicknames : List String) : Person :=
  { age := age, nicknames := nicknames, valid := true }

/-- Move constructor
`Person(Person &&person) : age_(person.age_),
 nicknames_(std::move(person.nicknames_)), valid_(true) { person.valid_ = false; }`.
Returns (new object, state of `person` afterwards).  The moved-from
`std::vector` is left empty (its buffer is stolen). -/
def Person.moveCtor (person : Person) : Person × Person :=
  ({ age := person.age, nicknames := person.nicknames, valid := true },
   { age := person.age, nicknames := [], valid := false })

/-- Move assignment operator, for `this` and `other` distinct objects:
`age_ = other.age_; nicknames_ = std::move(other.nicknames_); valid_ = true;
 other.valid_ = false;`.
Returns (state of `*this` afterwards, state of `other` afterwards); the prior
state of the target is entirely overwritten. -/
def Person.moveAssign (_target other : Person) : Person × Person :=
  ({ age := other.age, nicknames := other.nicknames, valid := true },
   { age := other.age, nicknames := [], valid := false })

/-- The move assignment operator executed with `other` aliasing `*this`
(`p = std::move(p)`), statement by statement on the single object:
`age_ = other.age_` is the identity; `nicknames_ = std::move(other.nicknames_)`
self-move-assigns the vector, which leaves it empty in libstdc++ (the buffer
is stolen and then cleared); `valid_ = true`; finally `other.valid_ = false`
writes through the alias, so the object ends up invalid. -/
def Person.selfMoveAssign (p : Person) : Person :=
  let s1 : Person := { p with age := p.age }
  let s2 : Person := { s1 with nicknames := [] }
  let s3 : Person := { s2 with valid := true }
  { s3 with valid := false }

/-- Accessor `uint32_t GetAge() { return age_; }`. -/
def Person.getAge (p : Person) : Nat := p.age

/-- The `valid_` flag as observed by `PrintValid` — the spec's `is_valid()` query. -/
def Person.isValid (p : Person) : Bool := p.valid

/-- Accessor `std::string &GetNicknameAtI(size_t i)`; out-of-range access is the
undefined-behaviour boundary, modelled as `none`. -/
def Person.getNicknameAtI (p : Person) (i : Nat) : Option String :=
  p.nicknames.get? i

/-! ## Node, DLL, DLLIterator (range_based_for.cpp) -/

/-- One heap node: `Node { Node *next_; Node *prev_; int value_; }`.
Pointers are heap addresses (`Nat`); the null pointer is `none`. -/
structure Node where
  next : Option Nat
  prev : Option Nat
  value : Int
deriving DecidableEq, Repr

/-- The heap of `new`-allocated nodes: contents of each address, plus a
counter from which fresh addresses are drawn.  An address outside the
allocated set maps to `none`. -/
structure Heap where
  mem : Nat → Option Node
  fresh : Nat

/-- Overwrite the node stored at an allocated address (a field write through
a pointer). -/
def Heap.set (h : Heap) (a : Nat) (nd : Node) : Heap :=
  { mem := fun b => if b = a then some nd else h.mem b, fresh := h.fresh }

/-- Release one node (`delete current`): the address leaves the allocated set. -/
def Heap.free (h : Heap) (a : Nat) : Heap :=
  { mem := fun b => if b = a then none else h.mem b, fresh := h.fresh }

/-- State of one `DLL` object: `Node *head_` and `size_t size_`, together
with the heap its nodes live in. -/
structure DLL where
  heap : Heap
  head : Option Nat
  size : Nat

/-- Constructor `DLL() : head_(nullptr), size_(0) {}`, with an empty heap. -/
def DLL.new : DLL :=
  { heap := { mem := fun _ => none, fresh := 0 }, head := none, size := 0 }

/-- Method `DLL::InsertAtHead(int val)`:
`Node *new_node = new Node(val); new_node->next_ = head_;
 if (head_ != nullptr) { head_->prev_ = new_node; }
 head_ = new_node; size_ += 1;`
The freshly allocated node already carries `next_ = head_` (the constructor
sets `next_ = nullptr` and the very next statement overwrites it) and
`prev_ = nullptr`.  The `none` branch of the inner lookup (the old head
dangling) is the undefined-behaviour boundary; it cannot arise for a list
built through this interface. -/
def DLL.insertAtHead (d : DLL) (v : Int) : DLL :=
  let a := d.heap.fresh
  let h1 : Heap :=
    { mem := fun b => if b = a then some { next := d.head, prev := none, value := v }
                      else d.heap.mem b,
      fresh := a + 1 }
  let h2 : Heap :=
    match d.head with
    | none => h1
    | some hd =>
      match h1.mem hd with
      | none => h1
      | some hnd => h1.set hd { hnd with prev := some a }
  { heap := h2, head := some a, size := d.size + 1 }

/-- A `DLL` built by inserting the given values at the head, in order,
starting from a fresh empty list — the only way the source mutates a list. -/
def buildList (vals : List Int) : DLL := vals.foldl DLL.insertAtHead DLL.new

/-- State of one `DLL::DLLIterator`: the cursor `Node *curr_`. -/
structure DLLIterator where
  curr : Option Nat
deriving DecidableEq, Repr

/-- Operator `++` (prefix): `curr_ = curr_->next_; return *this;`.
Dereferencing a null `curr_`, or a dangling one, is undefined behaviour,
modelled as `none`. -/
def DLLIterator.inc (h : Heap) (it : DLLIterator) : Option DLLIterator :=
  match it.curr with
  | none => none
  | some a =>
    match h.mem a with
    | none => none
    | some nd => some { curr := nd.next }

/-- Operator `!=`: `return itr.curr_ != this->curr_;` — it compares the node
addresses the two cursors hold (identity), never the stored values. -/
def DLLIterator.notEqual (self itr : DLLIterator) : Bool :=
  decide (itr.curr ≠ self.curr)

/-- Operator `*`: `return curr_->value_;`; null or dangling `curr_` is
undefined behaviour, modelled as `none`. -/
def DLLIterator.deref (h : Heap) (it : DLLIterator) : Option Int :=
  match it.curr with
  | none => none
  | some a =>
    match h.mem a with
    | none => none
    | some nd => some nd.value

/-- Operator `+`: `for (size_t i = 0; i < offset; ++i) { curr_ = curr_->next_; }
return *this;` — the loop body is one `advance_one` step, run `offset` times;
there is no bounds check.  The mutated cursor itself is the result. -/
def DLLIterator.plus (h : Heap) : DLLIterator → Nat → Option DLLIterator
  | it, 0 => some it
  | it, offset + 1 =>
    (DLLIterator.inc h it).bind fun it2 => DLLIterator.plus h it2 offset

/-- Calling `operator++` k times in sequence (the spec's "advance_one() k
times"): first the k previous calls, then one more. -/
def advanceN (h : Heap) : Nat → DLLIterator → Option DLLIterator
  | 0, it => some it
  | k + 1, it => (advanceN h k it).bind (DLLIterator.inc h)

/-- Method `DLL::begin()`: `return DLLIterator(head_);`. -/
def DLL.begin (d : DLL) : DLLIterator := { curr := d.head }

/-- Method `DLL::end()`: `return DLLIterator(nullptr);`. -/
def DLL.endIter (_ : DLL) : DLLIterator := { curr := none }

/-- The iterator consumption loop
`for (iter = dll.begin(); iter != dll.end(); ++iter) use(*iter);`,
with explicit fuel (the C++ loop terminates because the chain is finite;
running out of fuel while the guard still holds yields `none`). -/
def traverseGo (h : Heap) : Nat → DLLIterator → DLLIterator → Option (List Int)
  | 0, cur, stop => if cur.notEqual stop then none else some []
  | fuel + 1, cur, stop =>
    if cur.notEqual stop then
      match DLLIterator.deref h cur, DLLIterator.inc h cur with
      | some v, some cur2 => (traverseGo h fuel cur2 stop).map fun rest => v :: rest
      | _, _ => none
    else some []

/-- Full traversal of a list from `begin()` to `end()`, collecting the
dereferenced values; the chain of a well-formed list has exactly `size_`
nodes, so `size_` is enough fuel. -/
def DLL.iterateAll (d : DLL) : Option (List Int) :=
  traverseGo d.heap d.size d.begin d.endIter

/-- The destructor loop `~DLL()`:
`Node *current = head_; while (current != nullptr) {
   Node *next = current->next_; delete current; current = next; }`
The next link is read (captured) from the heap before the node is freed,
exactly as in the source.  Returns the final heap and the addresses freed,
in order; `delete` on a dangling pointer, or a chain longer than the fuel
(a cycle), yields `none`. -/
def destructGo : Heap → Option Nat → Nat → Option (Heap × List Nat)
  | h, none, _ => some (h, [])
  | _, some _, 0 => none
  | h, some a, fuel + 1 =>
    match h.mem a with
    | none => none
    | some nd => (destructGo (h.free a) nd.next fuel).map fun r => (r.1, a :: r.2)

/-- The whole destructor `~DLL()`: run the loop, then `head_ = nullptr;`.
Returns the destroyed list's final state and the freed addresses. -/
def DLL.destructor (d : DLL) : Option (DLL × List Nat) :=
  (destructGo d.heap d.head d.size).map fun r =>
    ({ heap := r.1, head := none, size := d.size }, r.2)

/-! ## The chain representation predicate and the list invariant -/

/-- The heap chain starting at a pointer spells out a list of node addresses
and a list of stored values, following `next_` links down to null. -/
inductive ChainA (h : Heap) : Option Nat → List Nat → List Int → Prop
  | nil : ChainA h none [] []
  | cons (a : Nat) (nd : Node) (ns : List Nat) (vs : List Int) :
      h.mem a = some nd → ChainA h nd.next ns vs →
      ChainA h (some a) (a :: ns) (nd.value :: vs)

theorem ChainA.length_eq {h : Heap} {c : Option Nat} {ns : List Nat}
    {vs : List Int} (hch : ChainA h c ns vs) : ns.length = vs.length := by
  induction hch with
  | nil => rfl
  | cons a nd ns vs hmem htail ih => simp [ih]

/-- A chain is preserved by any heap change that keeps every chain node
allocated with the same `next_` and `value_` fields (its `prev_` may change). -/
theorem ChainA.congrHeap {h h' : Heap} {c : Option Nat} {ns : List Nat}
    {vs : List Int} (hch : ChainA h c ns vs)
    (hagree : ∀ a ∈ ns, ∀ nd, h.mem a = some nd →
      ∃ nd', h'.mem a = some nd' ∧ nd'.next = nd.next ∧ nd'.value = nd.value) :
    ChainA h' c ns vs := by
  induction hch with
  | nil => exact ChainA.nil
  | cons a nd ns vs hmem htail ih =>
    obtain ⟨nd', hmem', hnext', hval'⟩ := hagree a (List.mem_cons_self a ns) nd hmem
    have htail' : ChainA h' nd'.next ns vs := by
      rw [hnext']
      exact ih fun b hb => hagree b (List.mem_cons_of_mem a hb)
    have hcons := ChainA.cons a nd' ns vs hmem' htail'
    rwa [hval'] at hcons

/-- A chain is preserved verbatim by any heap change that does not touch the
chain's addresses. -/
theorem ChainA.monoHeap {h h' : Heap} {c : Option Nat} {ns : List Nat}
    {vs : List Int} (hch : ChainA h c ns vs)
    (hagree : ∀ a ∈ ns, h'.mem a = h.mem a) : ChainA h' c ns vs :=
  hch.congrHeap fun a ha nd hmem => ⟨nd, by rw [hagree a ha, hmem], rfl, rfl⟩

/-- Well-formedness of a list state: the heap chain from `head_` spells the
addresses `ns` and values `vs`; the addresses are distinct and below the
allocation counter; the allocated addresses are exactly the chain's; and
`size_` is the chain length. -/
structure ListInv (d : DLL) (ns : List Nat) (vs : List Int) : Prop where
  chain : ChainA d.heap d.head ns vs
  nodup : ns.Nodup
  bounded : ∀ a ∈ ns, a < d.heap.fresh
  dom : ∀ a, (d.heap.mem a).isSome ↔ a ∈ ns
  size_eq : d.size = vs.length

theorem listInv_new : ListInv DLL.new [] [] where
  chain := ChainA.nil
  nodup := List.nodup_nil
  bounded := by intro a ha; cases ha
  dom := by intro a; simp [DLL.new]
  size_eq := rfl

theorem chainA_none_inv {h : Heap} {ns : List Nat} {vs : List Int}
    (hch : ChainA h none ns vs) : ns = [] ∧ vs = [] := by
  cases hch; exact ⟨rfl, rfl⟩

theorem chainA_some_inv {h : Heap} {a : Nat} {ns : List Nat} {vs : List Int}
    (hch : ChainA h (some a) ns vs) :
    ∃ nd ns' vs', h.mem a = some nd ∧ ns = a :: ns' ∧ vs = nd.value :: vs' ∧
      ChainA h nd.next ns' vs' := by
  cases hch with
  | cons a nd ns' vs' hmem htail => exact ⟨nd, ns', vs', hmem, rfl, rfl, htail⟩

/-- Head insertion preserves the invariant: the new node lives at the old
allocation-counter address and the spelled value list grows at the front. -/
theorem listInv_insert {d : DLL} {ns : List Nat} {vs : List Int}
    (inv : ListInv d ns vs) (v : Int) :
    ListInv (d.insertAtHead v) (d.heap.fresh :: ns) (v :: vs) := by
  obtain ⟨hch, hnodup, hbd, hdom, hsz⟩ := inv
  rcases hhead : d.head with _ | hd
  · -- empty list: the old chain is trivial
    rw [hhead] at hch
    obtain ⟨hns, hvs⟩ := chainA_none_inv hch
    subst hns; subst hvs
    have heq : d.insertAtHead v =
        { heap := { mem := fun b => if b = d.heap.fresh then
                      some { next := d.head, prev := none, value := v }
                    else d.heap.mem b,
                    fresh := d.heap.fresh + 1 },
          head := some d.heap.fresh, size := d.size + 1 } := by
      simp only [DLL.insertAtHead, hhead]
    rw [heq]
    refine ⟨?_, ?_, ?_, ?_, ?_⟩
    · exact ChainA.cons d.heap.fresh { next := d.head, prev := none, value := v } [] []
        (by simp) (by dsimp only; rw [hhead]; exact ChainA.nil)
    · simp
    · intro a ha
      simp only [List.mem_singleton] at ha
      simp [ha]
    · intro a
      by_cases hae : a = d.heap.fresh
      · simp [hae]
      · have hnone := hdom a
        simp only [List.not_mem_nil, iff_false, Option.not_isSome_iff_eq_none] at hnone
        simp [hae, hnone]
    · simpa using hsz
  · -- nonempty list: the old head gets its prev_ field rewritten
    rw [hhead] at hch
    obtain ⟨hnd, ns', vs', hmem, hns, hvs, htail⟩ := chainA_some_inv hch
    subst hns; subst hvs
    have hhd_mem : hd ∈ hd :: ns' := List.mem_cons_self hd ns'
    have hhd_lt : hd < d.heap.fresh := hbd hd hhd_mem
    have hhd_ne : hd ≠ d.heap.fresh := Nat.ne_of_lt hhd_lt
    have heq : d.insertAtHead v =
        { heap := Heap.set
            { mem := fun b => if b = d.heap.fresh then
                some { next := some hd, prev := none, value := v }
              else d.heap.mem b,
              fresh := d.heap.fresh + 1 }
            hd { hnd with prev := some d.heap.fresh },
          head := some d.heap.fresh, size := d.size + 1 } := by
      simp [DLL.insertAtHead, hhead, hhd_ne, hmem]
    rw [heq]
    have hmem2 : ∀ b, (Heap.set
        { mem := fun c => if c = d.heap.fresh then
            some { next := some hd, prev := none, value := v }
          else d.heap.mem c,
          fresh := d.heap.fresh + 1 }
        hd { hnd with prev := some d.heap.fresh }).mem b =
        if b = hd then some { hnd with prev := some d.heap.fresh }
        else if b = d.heap.fresh then some { next := some hd, prev := none, value := v }
        else d.heap.mem b := by
      intro b
      simp [Heap.set]
    refine ⟨?_, ?_, ?_, ?_, ?_⟩
    · refine ChainA.cons d.heap.fresh { next := some hd, prev := none, value := v }
        (hd :: ns') (hnd.value :: vs') ?_ ?_
      · rw [hmem2]
        simp [hhd_ne, Ne.symm hhd_ne]
      · dsimp only
        have htail2 : ChainA (Heap.set
            { mem := fun c => if c = d.heap.fresh then
                some { next := some hd, prev := none, value := v }
              else d.heap.mem c,
              fresh := d.heap.fresh + 1 }
            hd { hnd with prev := some d.heap.fresh }) hnd.next ns' vs' := by
          refine htail.monoHeap ?_
          intro b hb
          have hb_lt : b < d.heap.fresh := hbd b (List.mem_cons_of_mem hd hb)
          have hb_ne_hd : b ≠ hd := by
            intro hbe; subst hbe
            exact (List.nodup_cons.mp hnodup).1 hb
          rw [hmem2]
          simp [hb_ne_hd, Nat.ne_of_lt hb_lt]
        have hc := ChainA.cons hd { hnd with prev := some d.heap.fresh } ns' vs'
          (by rw [hmem2]; simp) htail2
        simpa using hc
    · refine List.nodup_cons.mpr ⟨?_, hnodup⟩
      intro hmemf
      exact absurd (hbd _ hmemf) (lt_irrefl d.heap.fresh)
    · intro a ha
      rcases List.mem_cons.mp ha with hae | ha'
      · subst hae; exact Nat.lt_succ_self _
      · exact Nat.lt_succ_of_lt (hbd a ha')
    · intro a
      rw [hmem2]
      by_cases hae : a = hd
      · subst hae
        simp [hhd_mem]
      · by_cases haf : a = d.heap.fresh
        · subst haf
          simp [Ne.symm hhd_ne]
        · have hda := hdom a
          simp only [hae, haf, if_false]
          rw [hda]
          simp [List.mem_cons, hae, haf]
    · simpa using hsz

theorem listInv_foldl {d : DLL} {ns : List Nat} {vs : List Int}
    (inv : ListInv d ns vs) :
    ∀ vals : List Int, ∃ ns',
      ListInv (vals.foldl DLL.insertAtHead d) ns' (vals.reverse ++ vs)
  | [] => ⟨ns, by simpa using inv⟩
  | v :: vals => by
    obtain ⟨ns', inv'⟩ := listInv_foldl (listInv_insert inv v) vals
    refine ⟨ns', ?_⟩
    have hl : vals.reverse ++ (v :: vs) = (v :: vals).reverse ++ vs := by simp
    rw [← hl]
    exact inv'

/-- Every list built through the public interface is well formed, and its
chain spells the inserted values in reverse insertion order. -/
theorem buildList_inv (vals : List Int) :
    ∃ ns, ListInv (buildList vals) ns vals.reverse := by
  obtain ⟨ns, inv⟩ := listInv_foldl listInv_new vals
  exact ⟨ns, by simpa using inv⟩

/-- Running the iterator consumption loop over a chain with fuel equal to the
chain length collects exactly the chain's values. -/
theorem traverseGo_chain {h : Heap} {c : Option Nat} {ns : List Nat}
    {vs : List Int} (hch : ChainA h c ns vs) :
    traverseGo h vs.length { curr := c } { curr := none } = some vs := by
  induction hch with
  | nil => rfl
  | cons a nd ns vs hmem htail ih =>
    simp [traverseGo, DLLIterator.notEqual, DLLIterator.deref, DLLIterator.inc,
      hmem, ih]

theorem advanceN_succ_front (h : Heap) (k : Nat) (it : DLLIterator) :
    advanceN h (k + 1) it = (DLLIterator.inc h it).bind (advanceN h k) := by
  induction k generalizing it with
  | zero => simp [advanceN]
  | succ k ih =>
    calc advanceN h (k + 2) it
        = (advanceN h (k + 1) it).bind (DLLIterator.inc h) := rfl
      _ = ((DLLIterator.inc h it).bind (advanceN h k)).bind (DLLIterator.inc h) := by
          rw [ih]
      _ = (DLLIterator.inc h it).bind (advanceN h (k + 1)) := by
          rw [Option.bind_assoc]
          rfl

/-- Operator `+` is exactly `operator++` iterated: the for loop of
`DLLIterator::operator+` performs `offset` single advances. -/
theorem plus_eq_advanceN (h : Heap) (k : Nat) (it : DLLIterator) :
    DLLIterator.plus h it k = advanceN h k it := by
  induction k generalizing it with
  | zero => rfl
  | succ k ih =>
    rw [advanceN_succ_front]
    show (DLLIterator.inc h it).bind (fun it2 => DLLIterator.plus h it2 k) = _
    cases DLLIterator.inc h it with
    | none => rfl
    | some it2 => simpa using ih it2

/-- Advancing k ≤ chain-length steps along a chain succeeds and lands on the
chain's k-th suffix. -/
theorem chainA_advance {h : Heap} :
    ∀ (k : Nat) {c : Option Nat} {ns : List Nat} {vs : List Int},
      ChainA h c ns vs → k ≤ ns.length →
      ∃ c', advanceN h k { curr := c } = some { curr := c' } ∧
        ChainA h c' (ns.drop k) (vs.drop k)
  | 0, c, ns, vs, hch, _ => ⟨c, rfl, by simpa using hch⟩
  | k + 1, c, ns, vs, hch, hk => by
    cases hch with
    | nil => exact absurd hk (by simp)
    | cons a nd ns' vs' hmem htail =>
      have hk' : k ≤ ns'.length := by simpa using hk
      obtain ⟨c', hrun, hch'⟩ := chainA_advance k htail hk'
      refine ⟨c', ?_, by simpa using hch'⟩
      rw [advanceN_succ_front]
      simp [DLLIterator.inc, hmem, hrun]

/-- Running the destructor loop over a well-formed chain, with fuel equal to
the chain length, frees exactly the chain's addresses — in chain order, each
once — and, since those are all the allocated addresses, empties the heap. -/
theorem destructGo_spec :
    ∀ (ns : List Nat) (h : Heap) (c : Option Nat) (vs : List Int),
      ChainA h c ns vs → ns.Nodup → (∀ b, (h.mem b).isSome ↔ b ∈ ns) →
      ∃ h', destructGo h c ns.length = some (h', ns) ∧ ∀ b, h'.mem b = none
  | [], h, c, vs, hch, _, hdom => by
    cases hch with
    | nil =>
      refine ⟨h, rfl, fun b => ?_⟩
      have hb := hdom b
      simpa [Option.isSome_iff_ne_none] using hb
  | a :: ns', h, c, vs, hch, hnodup, hdom => by
    cases hch with
    | cons a nd ns' vs' hmem htail =>
      have ha_not : a ∉ ns' := (List.nodup_cons.mp hnodup).1
      have htail' : ChainA (h.free a) nd.next ns' vs' := by
        refine htail.monoHeap ?_
        intro b hb
        have hb_ne : b ≠ a := fun hbe => ha_not (hbe ▸ hb)
        simp [Heap.free, hb_ne]
      have hdom' : ∀ b, ((h.free a).mem b).isSome ↔ b ∈ ns' := by
        intro b
        by_cases hbe : b = a
        · subst hbe
          simp [Heap.free, ha_not]
        · have hb := hdom b
          simp only [Heap.free, hbe, if_false]
          rw [hb]
          simp [List.mem_cons, hbe]
      obtain ⟨h', hrun, hall⟩ :=
        destructGo_spec ns' (h.free a) nd.next vs' htail' (List.nodup_cons.mp hnodup).2 hdom'
      refine ⟨h', ?_, hall⟩
      simp [destructGo, hmem, hrun]

theorem chainA_cons_inv {h : Heap} {c : Option Nat} {b : Nat} {rest : List Nat}
    {vs : List Int} (hch : ChainA h c (b :: rest) vs) :
    ∃ nd vs', c = some b ∧ h.mem b = some nd ∧ vs = nd.value :: vs' ∧
      ChainA h nd.next rest vs' := by
  cases hch with
  | cons a nd ns' vs' hmem htail => exact ⟨nd, vs', rfl, hmem, rfl, htail⟩

theorem chainA_nil_inv {h : Heap} {c : Option Nat} {vs : List Int}
    (hch : ChainA h c [] vs) : c = none ∧ vs = [] := by
  cases hch; exact ⟨rfl, rfl⟩

/-! ## Claim theorems -/

/-- Claim C1 (code bug): the spec requires self-transfer-assignment
(`p = std::move(p)`) to leave `p` valid with content unchanged, but the move
assignment operator has no self-assignment guard: after `valid_ = true` it
runs `other.valid_ = false`, and `other` aliases `*this`, so `is_valid()`
is false afterwards.  Evaluated at the concrete instance
`Person(15445, {"andy", "pavlo"})`. -/
theorem selfMoveAssign_invalidates :
    (Person.selfMoveAssign
      { age := 15445, nicknames := ["andy", "pavlo"], valid := true }).isValid
      = false := rfl

/-- Claim C2: `is_valid()` is true right after direct or default construction
and right after being the target of a move construction or move assignment,
and false right after being the source of either (source and target
distinct). -/
theorem person_validity_lifecycle :
    (∀ age nks, (Person.ctor age nks).isValid = true) ∧
    Person.ctorDefault.isValid = true ∧
    (∀ src, (Person.moveCtor src).1.isValid = true ∧
            (Person.moveCtor src).2.isValid = false) ∧
    (∀ tgt src, (Person.moveAssign tgt src).1.isValid = true ∧
                (Person.moveAssign tgt src).2.isValid = false) :=
  ⟨fun _ _ => rfl, rfl, fun _ => ⟨rfl, rfl⟩, fun _ _ => ⟨rfl, rfl⟩⟩

/-- Claim C3: after inserting N values at the head of an initially empty
list, `size_` is N and iterating a cursor from `begin()` until it equals
`end()`, dereferencing at each position, yields the N values in reverse
insertion order. -/
theorem buildList_size_and_traversal (vals : List Int) :
    (buildList vals).size = vals.length ∧
    (buildList vals).iterateAll = some vals.reverse := by
  obtain ⟨ns, inv⟩ := buildList_inv vals
  constructor
  · rw [inv.size_eq]
    simp
  · show traverseGo _ _ _ _ = _
    rw [inv.size_eq]
    exact traverseGo_chain inv.chain

/-- Claim C4: for k below the list size, `operator+` with offset k applied to
`begin()` and then dereferenced yields the same (defined) value as k
applications of `operator++` followed by dereference; the `+` loop is exactly
`offset` single advances. -/
theorem plus_deref_agrees (vals : List Int) (k : Nat)
    (hk : k < (buildList vals).size) :
    ∃ v, (((buildList vals).begin).plus (buildList vals).heap k).bind
          (DLLIterator.deref (buildList vals).heap) = some v ∧
         (advanceN (buildList vals).heap k ((buildList vals).begin)).bind
          (DLLIterator.deref (buildList vals).heap) = some v := by
  obtain ⟨ns, inv⟩ := buildList_inv vals
  have hkn : k < ns.length := by
    rw [inv.chain.length_eq]
    rw [inv.size_eq] at hk
    exact hk
  obtain ⟨c', hrun, hch'⟩ := chainA_advance k inv.chain (le_of_lt hkn)
  have hlen : 0 < (ns.drop k).length := by
    simpa using Nat.sub_pos_of_lt hkn
  cases hdrop : ns.drop k with
  | nil => rw [hdrop] at hlen; cases hlen
  | cons b rest =>
    rw [hdrop] at hch'
    obtain ⟨nd, vs', hc'eq, hmem, _, _⟩ := chainA_cons_inv hch'
    subst hc'eq
    refine ⟨nd.value, ?_, ?_⟩
    · rw [plus_eq_advanceN]
      show (advanceN _ k { curr := (buildList vals).head }).bind _ = _
      rw [hrun]
      simp [DLLIterator.deref, hmem]
    · show (advanceN _ k { curr := (buildList vals).head }).bind _ = _
      rw [hrun]
      simp [DLLIterator.deref, hmem]

/-- Claim C5: `end()` is reached from `begin()` in exactly `size_` single
advances (and not earlier); `begin() != end()` is false exactly for the empty
list; and `operator!=` compares the node addresses held by the cursors, not
stored values. -/
theorem start_end_reachability (vals : List Int) :
    advanceN (buildList vals).heap (buildList vals).size ((buildList vals).begin)
      = some ((buildList vals).endIter) ∧
    (∀ k, k < (buildList vals).size →
      ∃ c, advanceN (buildList vals).heap k ((buildList vals).begin) = some c ∧
        c.notEqual ((buildList vals).endIter) = true) ∧
    (((buildList vals).begin).notEqual ((buildList vals).endIter) = false ↔
      vals = []) ∧
    (∀ c1 c2 : DLLIterator, c1.notEqual c2 = true ↔ c2.curr ≠ c1.curr) := by
  obtain ⟨ns, inv⟩ := buildList_inv vals
  have hlen : ns.length = (buildList vals).size := by
    rw [inv.size_eq, inv.chain.length_eq]
  refine ⟨?_, ?_, ?_, ?_⟩
  · obtain ⟨c', hrun, hch'⟩ := chainA_advance ns.length inv.chain (le_refl _)
    rw [List.drop_length] at hch'
    obtain ⟨hc'none, _⟩ := chainA_nil_inv hch'
    subst hc'none
    rw [← hlen]
    exact hrun
  · intro k hk
    have hkn : k < ns.length := by rw [hlen]; exact hk
    obtain ⟨c', hrun, hch'⟩ := chainA_advance k inv.chain (le_of_lt hkn)
    have hdlen : 0 < (ns.drop k).length := by
      simpa using Nat.sub_pos_of_lt hkn
    cases hdrop : ns.drop k with
    | nil => rw [hdrop] at hdlen; cases hdlen
    | cons b rest =>
      rw [hdrop] at hch'
      obtain ⟨nd, vs', hc'eq, _, _, _⟩ := chainA_cons_inv hch'
      subst hc'eq
      exact ⟨{ curr := some b }, hrun, by simp [DLLIterator.notEqual, DLL.endIter]⟩
  · show (decide (({ curr := none } : DLLIterator).curr ≠ ((buildList vals).begin).curr) = false) ↔ _
    simp only [DLL.begin, decide_eq_false_iff_not, ne_eq, not_not]
    constructor
    · intro hnone
      have hch := inv.chain
      rw [← hnone] at hch
      obtain ⟨_, hvs⟩ := chainA_none_inv hch
      simpa using congrArg List.reverse hvs
    · intro hnil
      subst hnil
      rfl
  · intro c1 c2
    simp [DLLIterator.notEqual]

/-- Claim C6: destroying a list built through the public interface frees each
allocated node exactly once — the freed addresses are distinct and are
exactly the allocated ones, the final heap is empty (no leak, no
double-release; each node's `next_` is captured before the `delete`) — and
`head_` is null when teardown completes. -/
theorem destructor_releases_each_node_once (vals : List Int) :
    ∃ d' freed, (buildList vals).destructor = some (d', freed) ∧
      freed.Nodup ∧
      (∀ a, ((buildList vals).heap.mem a).isSome ↔ a ∈ freed) ∧
      (∀ a, d'.heap.mem a = none) ∧
      d'.head = none := by
  obtain ⟨ns, inv⟩ := buildList_inv vals
  obtain ⟨h', hrun, hall⟩ := destructGo_spec ns (buildList vals).heap
    (buildList vals).head _ inv.chain inv.nodup inv.dom
  refine ⟨{ heap := h', head := none, size := (buildList vals).size }, ns,
    ?_, inv.nodup, inv.dom, hall, rfl⟩
  unfold DLL.destructor
  have hsz : (buildList vals).size = ns.length := by
    rw [inv.size_eq, inv.chain.length_eq]
  rw [hsz, hrun]
  rfl

/-- Claim C8: `operator+` with offset 0 performs no advance at all — the for
loop body never runs — and returns the cursor unchanged. -/
theorem plus_zero_identity (h : Heap) (it : DLLIterator) :
    DLLIterator.plus h it 0 = some it := rfl

/-- Claim C9: after a move construction or move assignment between distinct
objects, the source's `age_` still holds its prior value — `age_` is copied
to the target and never written in the source. -/
theorem moved_from_age_preserved :
    (∀ src, (Person.moveCtor src).2.getAge = src.getAge) ∧
    (∀ tgt src, (Person.moveAssign tgt src).2.getAge = src.getAge) :=
  ⟨fun _ => rfl, fun _ _ => rfl⟩

/-- Claim C10: move construction and move assignment unconditionally set the
target's `valid_` to true and the source's to false, for any prior source
flag `b` — including an already-invalid source; validity is never checked. -/
theorem transfer_unconditional (age : Nat) (nks : List String) (b : Bool)
    (tgt : Person) :
    (Person.moveCtor { age := age, nicknames := nks, valid := b }).1.isValid = true ∧
    (Person.moveCtor { age := age, nicknames := nks, valid := b }).2.isValid = false ∧
    (Person.moveAssign tgt { age := age, nicknames := nks, valid := b }).1.isValid = true ∧
    (Person.moveAssign tgt { age := age, nicknames := nks, valid := b }).2.isValid = false :=
  ⟨rfl, rfl, rfl, rfl⟩

/-! ## Witnesses -/

/-- Witness for C4 at the source's own demo list `6,5,4,3,2,1` and offset 2
(the third element). -/
theorem plus_deref_agrees_witness :
    2 < (buildList [6, 5, 4, 3, 2, 1]).size ∧
    ∃ v, (((buildList [6, 5, 4, 3, 2, 1]).begin).plus
            (buildList [6, 5, 4, 3, 2, 1]).heap 2).bind
          (DLLIterator.deref (buildList [6, 5, 4, 3, 2, 1]).heap) = some v ∧
         (advanceN (buildList [6, 5, 4, 3, 2, 1]).heap 2
            ((buildList [6, 5, 4, 3, 2, 1]).begin)).bind
          (DLLIterator.deref (buildList [6, 5, 4, 3, 2, 1]).heap) = some v :=
  ⟨by decide, plus_deref_agrees [6, 5, 4, 3, 2, 1] 2 (by decide)⟩

/-- Witness for C5 on a two-element list: one advance from `begin()` has not
yet reached `end()`. -/
theorem start_end_reachability_witness :
    ∃ c, advanceN (buildList [6, 5]).heap 1 ((buildList [6, 5]).begin)
        = some c ∧
      c.notEqual ((buildList [6, 5]).endIter) = true :=
  (start_end_reachability [6, 5]).2.1 1 (by decide)

/-- Witness for C6 on a concrete two-element list. -/
theorem destructor_releases_witness :
    ∃ d' freed, (buildList [3, 4]).destructor = some (d', freed) ∧
      freed.Nodup ∧
      (∀ a, ((buildList [3, 4]).heap.mem a).isSome ↔ a ∈ freed) ∧
      (∀ a, d'.heap.mem a = none) ∧
      d'.head = none :=
  destructor_releases_each_node_once [3, 4]
